import Mathlib

/-!
Verification development for the manifest resolution core of the
quarks-operator repository.

The embedding follows `src/pkg/bosh/manifest/manifest.go` and
`src/pkg/kube/util/withops/resolver.go`.  The document tree that
`Marshal` / `markDuplicateValues` operate on (the result of
`goyaml.Unmarshal` into a `goyaml.MapSlice`) is modelled by the
inductive `YVal`: every mapping - the root and the nested ones - is
an ordered list of key/value items, since `goyaml` propagates the
`MapSlice` type to nested mappings, so every mapping entry is a
`MapItem` struct visited through the `reflect.Struct` case (the
`reflect.Map` case of `markDuplicateValues` is unreachable from
`Marshal`); sequences are slices, and scalars are either strings or
opaque non-string scalars.  `goyaml.Marshal` emits `MapSlice` entries
in their stored order, so serialization is deterministic and follows
document order throughout.
-/

namespace QuarksOperator

/-- A node of the untyped YAML document tree handled by
`markDuplicateValues`.  `vmap` is a mapping decoded as a
`goyaml.MapSlice`: an ordered entry list, emitted in that order by
`goyaml.Marshal`. -/
inductive YVal where
  | vstr (s : String)
  | vother
  | vseq (items : List YVal)
  | vmap (entries : List (String × YVal))

/-- Entry of the `duplicateValues` table built by `markDuplicateValues`
(Go struct `duplicateYamlValue`): the content hash and the original
yaml key that received the anchor marker. -/
structure DupVal where
  hash : String
  yamlKeyMarker : String
deriving DecidableEq

/-- The `duplicateValues` table, keyed by hash.  Go uses
`map[string]duplicateYamlValue`; only hash membership and the final
set of entries matter, so an insertion-ordered list is used. -/
abbrev DupTable := List DupVal

/-- Hash membership test, modelling `_, foundValue := duplicateValues[sha1]`. -/
def DupTable.hasHash (t : DupTable) (h : String) : Bool :=
  t.any (fun d => d.hash = h)

/-- One hexadecimal digit. -/
def hexDigit (n : Nat) : Char :=
  if n < 10 then Char.ofNat (48 + n) else Char.ofNat (87 + n)

/-- Fixed-width (six hex digits) encoding of one character's code
point. -/
def hexChar (c : Char) : List Char :=
  [hexDigit (c.toNat / 1048576 % 16), hexDigit (c.toNat / 65536 % 16),
    hexDigit (c.toNat / 4096 % 16), hexDigit (c.toNat / 256 % 16),
    hexDigit (c.toNat / 16 % 16), hexDigit (c.toNat % 16)]

/-- Content hash of a string.  The Go code uses SHA-1, whose relevant
properties are that it is collision-free in practice and that its hex
digest uses only the characters 0-9 and a-f (in particular never the
marker separator).  The model uses an injective hex image of the
string, which has both properties by construction. -/
def sha1Of (s : String) : String :=
  String.mk (s.data.flatMap hexChar)

mutual

/-- `markDuplicateValues`, the cases for a single value
(`reflect.Ptr`/`reflect.Interface` indirections are implicit in the
model; `reflect.String` values reached directly - i.e. inside
sequences - fall through the `switch` unchanged, as in the source).
A nested mapping is a `MapSlice`: a slice of `MapItem` structs, so it
goes through the `reflect.Slice` case and each of its entries through
the `reflect.Struct` case, exactly like the root mapping -
`markItems` below. -/
def markVal : YVal → DupTable → YVal × DupTable
  | .vstr s, t => (.vstr s, t)
  | .vother, t => (.vother, t)
  | .vseq items, t =>
    let r := markList items t
    (.vseq r.1, r.2)
  | .vmap entries, t =>
    let r := markItems entries t
    (.vmap r.1, r.2)
termination_by structural v _ => v

/-- The `reflect.Array`/`reflect.Slice` case of `markDuplicateValues`:
visit the elements in order, threading the table. -/
def markList : List YVal → DupTable → List YVal × DupTable
  | [], t => ([], t)
  | v :: rest, t =>
    let r := markVal v t
    let rr := markList rest r.2
    (r.1 :: rr.1, rr.2)
termination_by structural l _ => l

/-- The `reflect.Struct` case of `markDuplicateValues`, applied to the
items of a `goyaml.MapSlice` (field 0 is the key, field 1 the value),
at the root and inside every nested mapping alike.  A non-empty
string value longer than 64 is hashed; the first occurrence keeps its
value and has its key rewritten to the marker `key=hash`, later
occurrences are replaced by the alias marker `*hash`.  Non-string
values are recursed into. -/
def markItems : List (String × YVal) → DupTable → List (String × YVal) × DupTable
  | [], t => ([], t)
  | (k, .vstr s) :: rest, t =>
    if s ≠ "" ∧ 64 < s.length then
      let h := sha1Of s
      if t.hasHash h then
        let rr := markItems rest t
        ((k, .vstr ("*" ++ h)) :: rr.1, rr.2)
      else
        let rr := markItems rest (t ++ [⟨h, k⟩])
        ((k ++ "=" ++ h, .vstr s) :: rr.1, rr.2)
    else
      let rr := markItems rest t
      ((k, .vstr s) :: rr.1, rr.2)
  | (k, v) :: rest, t =>
    let r := markVal v t
    let rr := markItems rest r.2
    ((k, r.1) :: rr.1, rr.2)
termination_by structural l _ => l

end

/-- Recognize an alias marker `*hash` for a recorded hash.  Models the
post-pass `bytes.ReplaceAll` of `'*hash'` with `*hash` in `Marshal`:
only hashes present in the `duplicateValues` table are unquoted into
YAML aliases. -/
def aliasHash (t : DupTable) (s : String) : Option String :=
  t.findSome? (fun d => if s = "*" ++ d.hash then some d.hash else none)

/-- Recognize an anchor-marker key `key=hash` for a recorded table
entry.  Models the post-pass `bytes.ReplaceAll` of `key=hash: ` with
`key: &hash ` in `Marshal`. -/
def stripMarker (t : DupTable) (k : String) : Option (String × String) :=
  t.findSome? (fun d =>
    if k = d.yamlKeyMarker ++ "=" ++ d.hash then some (d.yamlKeyMarker, d.hash) else none)

mutual

/-- Rendering of a marked document value to bytes (flow style stands
for the `goyaml.Marshal` output after the marker substitutions of
`Marshal`): alias markers for recorded hashes are emitted unquoted
(`*hash`), other strings quoted (angle brackets stand for the
YAML quoting). -/
def renderVal (t : DupTable) : YVal → String
  | .vstr s =>
    match aliasHash t s with
    | some h => "*" ++ h
    | none => "<" ++ s ++ ">"
  | .vother => "null"
  | .vseq items => "[" ++ renderList t items ++ "]"
  | .vmap entries => "\x7b" ++ renderEntries t entries ++ "\x7d"
termination_by structural v => v

def renderList (t : DupTable) : List YVal → String
  | [] => ""
  | [v] => renderVal t v
  | v :: rest => renderVal t v ++ ", " ++ renderList t rest
termination_by structural l => l

/-- Render mapping entries; a key carrying a recorded anchor marker
`key=hash` is emitted as the anchor declaration `key: &hash value`. -/
def renderEntries (t : DupTable) : List (String × YVal) → String
  | [] => ""
  | [(k, v)] =>
    (match stripMarker t k with
     | some kh => kh.1 ++ ": &" ++ kh.2 ++ " "
     | none => k ++ ": ") ++ renderVal t v
  | (k, v) :: rest =>
    (match stripMarker t k with
     | some kh => kh.1 ++ ": &" ++ kh.2 ++ " "
     | none => k ++ ": ") ++ renderVal t v ++ ", " ++ renderEntries t rest
termination_by structural l => l

end

/-- The serialization `Marshal` of a document tree, with the
substitution table made explicit: run `markDuplicateValues` from the
root (the first serialization pass and the unmarshal into
`goyaml.MapSlice` are the identity at tree level), emit the marked
tree in document order as `goyaml.Marshal` does, and substitute the
anchor/alias markers recorded in `t` - the table consulted by the
final `bytes.ReplaceAll` loop, whose Go-map iteration order is the
only per-invocation variation left in `Marshal`. -/
def marshalDocWith (t : DupTable) (doc : List (String × YVal)) : String :=
  renderEntries t (markItems doc []).1

/-- The canonical serialization `Marshal` of a document tree:
marking, then rendering with the marker substitutions of the
computed `duplicateValues` table. -/
def marshalDoc (doc : List (String × YVal)) : String :=
  marshalDocWith (markItems doc []).2 doc

/-- Anchors seen so far while parsing back a serialized document:
hash to anchored string value. -/
abbrev AnchorEnv := List (String × String)

mutual

/-- Parse-back semantics of the marked document, at tree level:
walking the serialized document in document order, an anchor-marker
key defines its hash and an alias marker resolves to the anchored
value; an alias whose anchor has not yet been defined is a YAML parse
error (`none`), as in `LoadYAML`. -/
def resolveVal (t : DupTable) : YVal → AnchorEnv → Option (YVal × AnchorEnv)
  | .vstr s, env =>
    match aliasHash t s with
    | some h =>
      match env.lookup h with
      | some v => some (.vstr v, env)
      | none => none
    | none => some (.vstr s, env)
  | .vother, env => some (.vother, env)
  | .vseq items, env =>
    match resolveList t items env with
    | some r => some (.vseq r.1, r.2)
    | none => none
  | .vmap entries, env =>
    match resolveEntries t entries env with
    | some r => some (.vmap r.1, r.2)
    | none => none
termination_by structural v _ => v

def resolveList (t : DupTable) : List YVal → AnchorEnv → Option (List YVal × AnchorEnv)
  | [], env => some ([], env)
  | v :: rest, env =>
    match resolveVal t v env with
    | some r =>
      match resolveList t rest r.2 with
      | some rr => some (r.1 :: rr.1, rr.2)
      | none => none
    | none => none
termination_by structural l _ => l

def resolveEntries (t : DupTable) : List (String × YVal) → AnchorEnv →
    Option (List (String × YVal) × AnchorEnv)
  | [], env => some ([], env)
  | (k, v) :: rest, env =>
    match stripMarker t k with
    | some kh =>
      match v with
      | .vstr s =>
        match resolveEntries t rest (env ++ [(kh.2, s)]) with
        | some rr => some ((kh.1, .vstr s) :: rr.1, rr.2)
        | none => none
      | _ => none
    | none =>
      match resolveVal t v env with
      | some r =>
        match resolveEntries t rest r.2 with
        | some rr => some ((k, r.1) :: rr.1, rr.2)
        | none => none
      | none => none
termination_by structural l _ => l

end

/-- Round trip `LoadYAML (Marshal doc)` at tree level: mark duplicate
values, then parse the rendered document back in document order,
resolving the anchor and alias markers recorded in the table. -/
def roundTripDoc (doc : List (String × YVal)) : Option (List (String × YVal)) :=
  let r := markItems doc []
  match resolveEntries r.2 r.1 [] with
  | some rr => some rr.1
  | none => none

mutual

/-- Leaf string values longer than 64 occurring in mappings of a
document value (the strings subject to duplicate-value anchoring
according to the specification). -/
def longStringsVal : YVal → List String
  | .vstr _ => []
  | .vother => []
  | .vseq items => longStringsList items
  | .vmap entries => longStringsEntries entries
termination_by structural v => v

def longStringsList : List YVal → List String
  | [] => []
  | v :: rest => longStringsVal v ++ longStringsList rest
termination_by structural l => l

def longStringsEntries : List (String × YVal) → List String
  | [] => []
  | (_, .vstr s) :: rest =>
    (if 64 < s.length then [s] else []) ++ longStringsEntries rest
  | (_, v) :: rest => longStringsVal v ++ longStringsEntries rest
termination_by structural l => l

end

/-- A document has a duplicate long string value if some leaf string
longer than 64 characters occurs twice among mapping values. -/
def hasDuplicateLongStrings (doc : List (String × YVal)) : Bool :=
  !(longStringsEntries doc).Nodup

mutual

/-- The (key, value) pairs of all mapping entries whose value is a
string of length at most 64, in traversal order - the leaf strings
the duplicate-value anchoring must leave alone. -/
def shortEntriesVal : YVal → List (String × String)
  | .vstr _ => []
  | .vother => []
  | .vseq items => shortEntriesList items
  | .vmap entries => shortEntriesEntries entries
termination_by structural v => v

def shortEntriesList : List YVal → List (String × String)
  | [] => []
  | v :: rest => shortEntriesVal v ++ shortEntriesList rest
termination_by structural l => l

def shortEntriesEntries : List (String × YVal) → List (String × String)
  | [] => []
  | (k, .vstr s) :: rest =>
    (if s.length ≤ 64 then [(k, s)] else []) ++ shortEntriesEntries rest
  | (_, v) :: rest => shortEntriesVal v ++ shortEntriesEntries rest
termination_by structural l => l

end

mutual

/-- Marking without a threaded table: what `markDuplicateValues` does
when no duplicate hash is ever met - every long string value is a
first occurrence, so its key receives the anchor marker and no alias
is produced.  Used to characterize marking on documents without
duplicate long strings. -/
def specMarkVal : YVal → YVal
  | .vstr s => .vstr s
  | .vother => .vother
  | .vseq items => .vseq (specMarkList items)
  | .vmap entries => .vmap (specMarkEntries entries)
termination_by structural v => v

def specMarkList : List YVal → List YVal
  | [] => []
  | v :: rest => specMarkVal v :: specMarkList rest
termination_by structural l => l

def specMarkEntries : List (String × YVal) → List (String × YVal)
  | [] => []
  | (k, .vstr s) :: rest =>
    (if s ≠ "" ∧ 64 < s.length then (k ++ "=" ++ sha1Of s, YVal.vstr s)
     else (k, YVal.vstr s)) :: specMarkEntries rest
  | (k, v) :: rest => (k, specMarkVal v) :: specMarkEntries rest
termination_by structural l => l

end

mutual

/-- The `duplicateValues` entries collected by a duplicate-free
marking pass, in traversal order. -/
def specTableVal : YVal → DupTable
  | .vstr _ => []
  | .vother => []
  | .vseq items => specTableList items
  | .vmap entries => specTableEntries entries
termination_by structural v => v

def specTableList : List YVal → DupTable
  | [] => []
  | v :: rest => specTableVal v ++ specTableList rest
termination_by structural l => l

def specTableEntries : List (String × YVal) → DupTable
  | [] => []
  | (k, .vstr s) :: rest =>
    (if s ≠ "" ∧ 64 < s.length then [⟨sha1Of s, k⟩] else []) ++ specTableEntries rest
  | (_, v) :: rest => specTableVal v ++ specTableEntries rest
termination_by structural l => l

end

/-- A string contains the marker separator. -/
def containsEq (s : String) : Bool :=
  s.data.contains '='

/-- A string begins with the alias sigil. -/
def startsWithStar (s : String) : Bool :=
  match s.data with
  | '*' :: _ => true
  | _ => false

mutual

/-- No mapping key of the document contains the marker separator,
so no original key collides with the anchor-marker syntax
`key=hash`. -/
def eqFreeKeysVal : YVal → Bool
  | .vstr _ => true
  | .vother => true
  | .vseq items => eqFreeKeysList items
  | .vmap entries => eqFreeKeysEntries entries
termination_by structural v => v

def eqFreeKeysList : List YVal → Bool
  | [] => true
  | v :: rest => eqFreeKeysVal v && eqFreeKeysList rest
termination_by structural l => l

def eqFreeKeysEntries : List (String × YVal) → Bool
  | [] => true
  | (k, v) :: rest => !containsEq k && eqFreeKeysVal v && eqFreeKeysEntries rest
termination_by structural l => l

end

mutual

/-- No leaf string value of the document begins with the alias sigil,
so no original value collides with the alias syntax `*hash`. -/
def starFreeValsVal : YVal → Bool
  | .vstr s => !startsWithStar s
  | .vother => true
  | .vseq items => starFreeValsList items
  | .vmap entries => starFreeValsEntries entries
termination_by structural v => v

def starFreeValsList : List YVal → Bool
  | [] => true
  | v :: rest => starFreeValsVal v && starFreeValsList rest
termination_by structural l => l

def starFreeValsEntries : List (String × YVal) → Bool
  | [] => true
  | (_, v) :: rest => starFreeValsVal v && starFreeValsEntries rest
termination_by structural l => l

end

/-- Anchors defined while parsing back a duplicate-free marked
document: each long string anchors its own hash. -/
def anchorsOf (l : List String) : AnchorEnv :=
  l.map (fun s => (sha1Of s, s))

/-! ## Manifest data model

Typed manifest structures from `manifest.go`.  Fields that no modelled
operation reads or writes (sizes, networks, persistent disks, agent
settings, variable options, ...) are elided; the fields below are the
ones the embedded operations touch, with the types the source gives
them. -/

/-- `Update` block of a BOSH manifest.  Modelled from the spec: the
struct itself is declared outside the provided sources; the three
sub-fields are the ones `PropagateGlobalUpdateBlockToIGs` merges
(canary watch time and update watch time are strings, empty when
unset; `Serial` is a `*bool`, nil when unset). -/
structure Update where
  canaryWatchTime : String
  updateWatchTime : String
  serial : Option Bool
deriving DecidableEq

/-- `Quarks` job property block.  Modelled from the spec: only the
addon-origin marker `IsAddon` that `ApplyAddons` sets is kept. -/
structure Quarks where
  isAddon : Bool

/-- `JobProperties` of a BOSH job: free-form properties plus the
operator's `Quarks` block. -/
structure JobProperties where
  properties : List (String × YVal)
  quarks : Quarks

/-- `Job` of an instance group.  Modelled from the spec: the struct is
declared outside the provided sources; the fields are exactly those
`ApplyAddons` copies when cloning an addon job (`Name`, `Release`,
`Properties`, `Consumes`, `Provides`). -/
structure Job where
  name : String
  release : String
  properties : JobProperties
  consumes : List (String × YVal)
  provides : List (String × YVal)

/-- `InstanceGroup`.  Modelled from the spec: declared outside the
provided sources; `jobs` and the optional per-group `update` override
are the fields the embedded operations use. -/
structure InstanceGroup where
  name : String
  jobs : List Job
  update : Option Update

/-- `AddOnPlacementJob` from `manifest.go`. -/
structure AddOnPlacementJob where
  name : String
  release : String

/-- `AddOnPlacementRules` from `manifest.go` (`AddOnStemcell` carries
only its OS string). -/
structure AddOnPlacementRules where
  stemcell : List String
  deployments : List String
  jobs : List AddOnPlacementJob
  instanceGroup : List String
  networks : List String
  teams : List String
  lifecycle : String

/-- `AddOnJob` from `manifest.go`. -/
structure AddOnJob where
  name : String
  release : String
  properties : JobProperties
  consumes : List (String × YVal)
  provides : List (String × YVal)

/-- `AddOn` from `manifest.go`. -/
structure AddOn where
  name : String
  jobs : List AddOnJob
  includeRules : Option AddOnPlacementRules
  excludeRules : Option AddOnPlacementRules

/-- `Variable` from `manifest.go` (certificate/copy options elided:
no embedded operation reads them). -/
structure Variable where
  name : String
  type : String

/-- `Manifest` from `manifest.go` (features, tags, releases,
stemcells and global properties elided: no embedded operation reads
them). -/
structure Manifest where
  directorUUID : String
  instanceGroups : List InstanceGroup
  addOns : List AddOn
  vars : List Variable
  update : Option Update
  addOnsApplied : Bool

/-- Name of the reserved DNS addon skipped by `ApplyAddons`
(`BoshDNSAddOnName`). -/
def BoshDNSAddOnName : String := "bosh-dns"

/-- Effectful map over a list in the `Option` monad (explicit
recursion, used instead of `List.mapM` for easier reasoning). -/
def optionMapM {A B : Type} (f : A → Option B) : List A → Option (List B)
  | [] => some []
  | a :: l => (f a).bind fun b => (optionMapM f l).map (fun bs => b :: bs)

/-- The placement matcher `addOnPlacementMatch` (declared outside the
provided sources) as an abstract parameter: it receives the match
kind (`"inclusion"` or `"exclusion"`), the instance group and the
addon's rule set, and returns whether the rules match, or `none` for
a resolution error. -/
abbrev PlacementMatch :=
  String → InstanceGroup → Option AddOnPlacementRules → Option Bool

/-- Clone of an addon job appended to an instance group by
`ApplyAddons`: the listed fields are copied and the clone's
properties are marked as addon-originated
(`addedJob.Properties.Quarks.IsAddon = true`). -/
def mkAddonJob (aj : AddOnJob) : Job :=
  { name := aj.name
    release := aj.release
    properties := { aj.properties with quarks := { aj.properties.quarks with isAddon := true } }
    consumes := aj.consumes
    provides := aj.provides }

/-- Inner body of `ApplyAddons` for one addon and one instance group:
evaluate the include and exclude placement rules; when
`exclude || !include` the group is left unchanged, otherwise every
addon job is cloned (marked as addon) and appended to the group's
job list.  A placement error aborts (`none`). -/
def applyAddonToIG (pm : PlacementMatch) (addon : AddOn) (ig : InstanceGroup) :
    Option InstanceGroup := do
  let include_ ← pm "inclusion" ig addon.includeRules
  let exclude_ ← pm "exclusion" ig addon.excludeRules
  if exclude_ || !include_ then
    pure ig
  else
    pure { ig with jobs := ig.jobs ++ addon.jobs.map mkAddonJob }

/-- `ApplyAddons`: a no-op returning successfully when `AddOnsApplied`
is already set; otherwise every addon except the reserved DNS addon
is applied to every instance group, and on success `AddOnsApplied` is
set.  The Go loop is addon-major over instance-group pointers; since
each step touches only its own group, it equals this group-major
fold over the non-DNS addons in order. -/
def Manifest.applyAddons (pm : PlacementMatch) (m : Manifest) : Option Manifest :=
  if m.addOnsApplied then
    some m
  else do
    let igs ← optionMapM (fun ig =>
      (m.addOns.filter (fun a => a.name ≠ BoshDNSAddOnName)).foldlM
        (fun ig a => applyAddonToIG pm a ig) ig) m.instanceGroups
    pure { m with instanceGroups := igs, addOnsApplied := true }

/-- Per-group body of `PropagateGlobalUpdateBlockToIGs`: a group
without an update block adopts the global block wholesale (also when
the global block is nil); a group with a block has each unset
sub-field filled from the global block.  Filling a sub-field reads
`m.Update`; when the global block is nil that read is a nil-pointer
dereference, modelled as `none` (a fault, not a returned error). -/
def propagateUpdate (global : Option Update) : Option Update → Option (Option Update)
  | none => some global
  | some u => do
    let u ←
      if u.canaryWatchTime = "" then
        global.map (fun g => { u with canaryWatchTime := g.canaryWatchTime })
      else some u
    let u ←
      if u.updateWatchTime = "" then
        global.map (fun g => { u with updateWatchTime := g.updateWatchTime })
      else some u
    let u ←
      if u.serial = none then
        global.map (fun g => { u with serial := g.serial })
      else some u
    some (some u)

/-- `PropagateGlobalUpdateBlockToIGs` over all instance groups;
`none` models the nil-pointer fault. -/
def Manifest.propagateGlobalUpdateBlockToIGs (m : Manifest) : Option Manifest := do
  let igs ← optionMapM (fun ig =>
    (propagateUpdate m.update ig.update).map (fun u => { ig with update := u }))
    m.instanceGroups
  pure { m with instanceGroups := igs }

/-- Spec-side description of the update merge, following the
specification's words: a group without an update block adopts the
global block wholesale; otherwise only the unset sub-fields (empty
canary watch time, empty update watch time, nil serial flag) are
filled from the global block, set sub-fields staying untouched.  Used
to compare `propagateUpdate` against the specified field-level
merge. -/
def specUpdateMerge (g : Update) : Option Update → Update
  | none => g
  | some u =>
    { canaryWatchTime := if u.canaryWatchTime = "" then g.canaryWatchTime else u.canaryWatchTime
      updateWatchTime := if u.updateWatchTime = "" then g.updateWatchTime else u.updateWatchTime
      serial := if u.serial = none then g.serial else u.serial }

/-! ## Variable discovery and classification -/

/-- `SlashedVariable` from `manifest.go`: the name contains a slash
(`strings.Contains(name, "/")`). -/
def SlashedVariable (name : String) : Bool :=
  name.toList.contains '/'

/-- `strings.Split` at `/` separators, on the character list. -/
def splitSlash : List Char → List (List Char)
  | [] => [[]]
  | c :: cs =>
    if c = '/' then [] :: splitSlash cs
    else
      match splitSlash cs with
      | [] => [[c]]
      | g :: gs => (c :: g) :: gs

/-- Character class of the variable regexp (hyphen, slash, dot,
ASCII word class `\w`, Unicode letter class `\pL`; the latter is
approximated by `Char.isAlpha`, the names considered being ASCII). -/
def isVarChar (c : Char) : Bool :=
  c = '-' || c = '/' || c = '.' || c = '_' || c.isAlphanum || c.isAlpha

/-- Split a maximal run of variable characters off the front of the
input. -/
def takeVarRun : List Char → List Char × List Char
  | [] => ([], [])
  | c :: cs =>
    if isVarChar c then
      let r := takeVarRun cs
      (c :: r.1, r.2)
    else
      ([], c :: cs)

/-- Match the remainder of the variable regexp (`varRegexp` in
`ImplicitVariables`) after an opening `((`: an optional `!`,
a non-empty greedy run of variable characters, then `))`; returns
the captured group and the rest of the input. -/
def tryVarMatch (l : List Char) : Option (String × List Char) :=
  let bl : List Char × List Char :=
    match l with
    | '!' :: r => (['!'], r)
    | _ => ([], l)
  let run := takeVarRun bl.2
  match run.1, run.2 with
  | [], _ => none
  | cs, ')' :: ')' :: rest => some (String.mk (bl.1 ++ cs), rest)
  | _, _ => none

/-- All captures of the variable regexp over the raw manifest text
(`varRegexp.FindAllStringSubmatch`), leftmost first.  The scan can
advance one character at a time even over a successful match: the
character class excludes parentheses, so no second `((` can begin
inside a matched token. -/
def scanVars : List Char → List String
  | [] => []
  | '(' :: cs =>
    match cs with
    | '(' :: rest =>
      match tryVarMatch rest with
      | some nm => nm.1 :: scanVars cs
      | none => scanVars cs
    | _ => scanVars cs
  | _ :: cs => scanVars cs

/-- Per-match name processing of `ImplicitVariables`: a slashed name
is passed through; otherwise the first maximal run of non-dot
characters (`fieldRegexp.FindString` with `[^\.]+`) keeps only the
name part of a dotted explicit variable. -/
def processVarName (s : String) : String :=
  if SlashedVariable s then s
  else String.mk ((s.toList.dropWhile (fun c => c = '.')).takeWhile (fun c => c ≠ '.'))

/-- `ImplicitVariables` from `manifest.go`, given the serialized
manifest text `raw` (the `Marshal` output; serialization is modelled
separately): collect and process all placeholder captures, then
remove every name declared in the manifest's `Variables` list.  Go
collects the survivors of its `varMap` in map iteration order; the
model returns them deduplicated in a fixed order, which is
observationally equal up to ordering. -/
def Manifest.implicitVariables (m : Manifest) (raw : String) : List String :=
  (((scanVars raw.toList).map processVarName).dedup).filter
    (fun n => m.vars.all (fun v => v.name ≠ n))

/-- Default key of a single-value generated secret
(`bdv1.ImplicitVariableKeyName`).  Modelled from the spec: the
constant is declared outside the provided sources; the spec fixes the
default key to `"value"`. -/
def ImplicitVariableKeyName : String := "value"

/-- Classification of one implicit variable name by `buildSecretRefs`
in `resolver.go`: a slashed name must split into exactly two parts,
giving the sanitized secret name and the key; more than one slash is
a hard error; a non-slashed name uses the default key.  The sanitizer
`names.SecretVariableName` is declared outside the provided sources
and is passed as a parameter. -/
def classifyVar (sanitize : String → String) (v : String) :
    Except String (String × String) :=
  if SlashedVariable v then
    let parts := (splitSlash v.toList).map String.mk
    if parts.length ≠ 2 then
      .error ("expected one / separator for implicit variable/key name, have " ++
        toString parts.length)
    else
      .ok (sanitize (parts.headD ""), parts.getLastD "")
  else
    .ok (sanitize v, ImplicitVariableKeyName)

/-- Secret references accumulated by `buildSecretRefs`: secret name
to the list of (key, original variable) pairs, insertion ordered
(Go's `secretRefs` map). -/
abbrev SecretRefs := List (String × List (String × String))

/-- `secretRefs.add` from `resolver.go`. -/
def SecretRefs.add (s : SecretRefs) (variable_ secName key : String) : SecretRefs :=
  match s.lookup secName with
  | some infos =>
    s.map (fun e => if e.1 = secName then (e.1, infos ++ [(key, variable_)]) else e)
  | none => s ++ [(secName, [(key, variable_)])]

/-- `buildSecretRefs` from `resolver.go`, applied to an already
discovered list of implicit variable names: classify each name and
index it by secret name.  The first classification error aborts. -/
def buildSecretRefs (sanitize : String → String) (vars : List String) :
    Except String SecretRefs :=
  vars.foldlM (fun refs v => do
    let c ← classifyVar sanitize v
    pure (refs.add v c.1 c.2)) []

/-! ## Resolver: batch and per-ops-file manifest resolution

`Resolver.Manifest` and `Resolver.ManifestDetailed` from
`resolver.go`.  The external collaborators are parameters:

* `fetch` models `resourceData` (reference type, reference name,
  key within the resource; `none` is a fetch failure);
* the template evaluator (the `Interpolator` built by
  `newInterpolatorFunc`, declared outside the provided sources) is
  modelled from the spec: `AddOps` parses an ops file into patch
  operations and accumulates them (`parseOps`), and `Interpolate`
  applies the accumulated operations to the document in order
  (`applyOp`), failing with an evaluation error (`none`);
* `post` models the pipeline stages shared verbatim by both entry
  points after loading (`AddReleasesLabels` followed by
  `applyVariables`; the `logName` argument that differs between the
  two call sites only labels log output). -/

/-- Reference to a manifest or ops resource from the deployment spec
(`bdv1.ResourceReference`). -/
structure ResourceRef where
  type : String
  name : String

/-- The deployment spec fields used by resolution
(`bdpl.Spec.Manifest` and `bdpl.Spec.Ops`). -/
structure BdplSpec where
  manifest : ResourceRef
  ops : List ResourceRef

/-- Key under which manifest text is fetched
(`bdv1.ManifestSpecName`; declared outside the provided sources, the
value is irrelevant to the model). -/
def ManifestSpecName : String := "manifest"

/-- Key under which ops text is fetched (`bdv1.OpsSpecName`). -/
def OpsSpecName : String := "ops"

/-- External collaborators of the resolver. -/
structure ResolverDeps (Op M : Type) where
  fetch : String → String → String → Option String
  parseOps : String → Option (List Op)
  applyOp : String → Op → Option String
  loadYAML : String → Option M
  post : M → Option M

/-- Modelled from the spec: `Interpolate` of the external template
evaluator applies the accumulated patch operations to the document in
order, failing when one of them fails. -/
def interpolateOps {Op M : Type} (d : ResolverDeps Op M) (ops : List Op)
    (doc : String) : Option String :=
  ops.foldlM d.applyOp doc

/-- `Resolver.load` (the batch path used by `Resolver.Manifest`):
fetch the manifest text, fetch every ops file and accumulate its
parsed operations into one interpolator via `AddOps`, evaluate once
when any ops file is present, and parse the result. -/
def loadBatch {Op M : Type} (d : ResolverDeps Op M) (spec : BdplSpec) : Option M := do
  let m ← d.fetch spec.manifest.type spec.manifest.name ManifestSpecName
  let allOps ← spec.ops.foldlM (fun acc op => do
    let opsData ← d.fetch op.type op.name OpsSpecName
    let parsed ← d.parseOps opsData
    pure (acc ++ parsed)) []
  let bytes ← if spec.ops.isEmpty then some m else interpolateOps d allOps m
  d.loadYAML bytes

/-- The loading phase of `Resolver.ManifestDetailed`: for each ops
file a fresh interpolator receives just that file's operations and
re-evaluates the current document. -/
def loadDetailed {Op M : Type} (d : ResolverDeps Op M) (spec : BdplSpec) : Option M := do
  let m ← d.fetch spec.manifest.type spec.manifest.name ManifestSpecName
  let bytes ← spec.ops.foldlM (fun cur op => do
    let opsData ← d.fetch op.type op.name OpsSpecName
    let parsed ← d.parseOps opsData
    interpolateOps d parsed cur) m
  d.loadYAML bytes

/-- `Resolver.Manifest`: batch load, then the shared pipeline
(`AddReleasesLabels`, `applyVariables` with log name
`manifest-addons`). -/
def resolverManifest {Op M : Type} (d : ResolverDeps Op M) (spec : BdplSpec) :
    Option M :=
  (loadBatch d spec).bind d.post

/-- `Resolver.ManifestDetailed`: per-ops-file load, then the same
shared pipeline (log name `detailed-manifest-addons`). -/
def resolverManifestDetailed {Op M : Type} (d : ResolverDeps Op M) (spec : BdplSpec) :
    Option M :=
  (loadDetailed d spec).bind d.post

/-! ## Concrete fixtures used by witnesses and counterexamples -/

/-- Spec-side description of `PropagateGlobalUpdateBlockToIGs` when a
global update block exists: every instance group ends up with an
update block, obtained by the specified field-level merge. -/
def specPropagateIGs (g : Update) (igs : List InstanceGroup) : List InstanceGroup :=
  igs.map (fun ig => { ig with update := some (specUpdateMerge g ig.update) })

/-- A concrete placement matcher: inclusion rules always match,
exclusion rules never do (the spec's defaults for absent rule sets). -/
def egMatch : PlacementMatch :=
  fun kind _ _ => some (kind == "inclusion")

/-- A concrete addon job. -/
def egAddOnJob : AddOnJob :=
  ⟨"addon-job", "addon-release", ⟨[], ⟨false⟩⟩, [], []⟩

/-- A concrete instance group with no jobs and no update override. -/
def egIG : InstanceGroup := ⟨"web", [], none⟩

/-- A manifest with one instance group and one ordinary addon. -/
def egManifest : Manifest :=
  ⟨"", [egIG], [⟨"logging", [egAddOnJob], none, none⟩], [], none, false⟩

/-- `egManifest` after a successful `ApplyAddons`. -/
def egManifestApplied : Manifest :=
  ⟨"", [⟨"web", [mkAddonJob egAddOnJob], none⟩],
    [⟨"logging", [egAddOnJob], none, none⟩], [], none, true⟩

/-- A manifest whose only addon carries the reserved DNS addon name. -/
def egDnsManifest : Manifest :=
  ⟨"", [egIG], [⟨"bosh-dns", [egAddOnJob], none, none⟩], [], none, false⟩

/-- A concrete global update block. -/
def egGlobalUpdate : Update := ⟨"30000-60000", "5000-10000", some true⟩

/-- An instance group with a partial update override: only `serial`
set. -/
def egPartialIG : InstanceGroup := ⟨"api", [], some ⟨"", "", some false⟩⟩

/-- An instance group without an update override. -/
def egNoUpdateIG : InstanceGroup := ⟨"worker", [], none⟩

/-- A manifest with a global update block, one partial and one absent
per-group override. -/
def egUpdateManifest : Manifest :=
  ⟨"", [egPartialIG, egNoUpdateIG], [], [], some egGlobalUpdate, false⟩

/-- A manifest with no global update block whose groups either have no
override or a fully set one. -/
def egNilUpdateManifest : Manifest :=
  ⟨"", [egNoUpdateIG, ⟨"full", [], some ⟨"10000", "20000", some true⟩⟩], [], [], none, false⟩

/-- A manifest declaring the explicit variable `foo`. -/
def egVarManifest : Manifest :=
  ⟨"", [], [], [⟨"foo", "password"⟩], none, false⟩


/-- A 65-character string: long enough to trigger duplicate-value anchoring. -/
def egLongX : String := String.mk (List.replicate 65 'x')

/-- A second, distinct 65-character string. -/
def egLongY : String := String.mk (List.replicate 65 'y')

/-- Counterexample document for C5: it has no duplicate long string values,
but its second key is literally the anchor-marker spelling key=hash of the
first entry, so the parse-back of the serialization strips the marker and
returns a different document. -/
def egC5bad : List (String × YVal) :=
  [("a", YVal.vstr egLongX), ("a=" ++ sha1Of egLongX, YVal.vstr "zz")]

/-- A document satisfying the amended C5 hypotheses: one long string, a
nested mapping, no marker separator in any key, no value starting with
the alias sigil. -/
def egC5ok : List (String × YVal) :=
  [("a", YVal.vstr egLongX),
   ("m", YVal.vmap [("b", YVal.vstr "short"), ("c", YVal.vseq [YVal.vother])])]

/-- A document whose nested mapping repeats a long string, producing a
two-entry duplicateValues table. -/
def egC6doc : List (String × YVal) :=
  [("a", YVal.vstr egLongX),
   ("m", YVal.vmap [("b", YVal.vstr egLongY), ("c", YVal.vstr egLongX)])]

/-- The duplicateValues table computed for egC6doc, listed in the reversed
range order. -/
def egC6tab : DupTable :=
  [⟨sha1Of egLongY, "b"⟩, ⟨sha1Of egLongX, "a"⟩]
/-- The document the parse-back of the serialization of egC5bad actually
returns: the marker-shaped second key has been stripped back to its
yamlKeyMarker part. -/
def egC5parsed : List (String × YVal) :=
  [("a", YVal.vstr egLongX), ("a", YVal.vstr "zz")]

/-! ## Helper lemmas -/

theorem option_bind_const_none {α β : Type} (x : Option α) :
    (x.bind fun _ => (none : Option β)) = none := by
  cases x <;> rfl

theorem foldlM_option_append {α β : Type} (f : β → α → Option β) :
    ∀ (l1 l2 : List α) (b : β),
      (l1 ++ l2).foldlM f b = (l1.foldlM f b).bind (fun b' => l2.foldlM f b') := by
  intro l1
  induction l1 with
  | nil => intro l2 b; simp
  | cons a l ih =>
    intro l2 b
    simp only [List.cons_append, List.foldlM_cons]
    cases f b a with
    | none => simp
    | some b1 => simp [ih]

theorem optionMapM_of_forall_some {α β : Type} (f : α → Option β) (g : α → β)
    (hf : ∀ a, f a = some (g a)) : ∀ l : List α, optionMapM f l = some (l.map g) := by
  intro l
  induction l with
  | nil => simp [optionMapM]
  | cons a l ih => simp [optionMapM, hf a, ih]

theorem optionMapM_id_of_forall_self {α : Type} (f : α → Option α) :
    ∀ l : List α, (∀ a ∈ l, f a = some a) → optionMapM f l = some l := by
  intro l
  induction l with
  | nil => simp [optionMapM]
  | cons a l ih =>
    intro h
    have ha := h a (by simp)
    have hl := ih (fun x hx => h x (by simp [hx]))
    simp [optionMapM, ha, hl]

theorem propagateUpdate_global_some (g : Update) (ou : Option Update) :
    propagateUpdate (some g) ou = some (some (specUpdateMerge g ou)) := by
  cases ou with
  | none => rfl
  | some u =>
    by_cases h1 : u.canaryWatchTime = "" <;> by_cases h2 : u.updateWatchTime = "" <;>
      by_cases h3 : u.serial = none <;>
      simp [propagateUpdate, specUpdateMerge, h1, h2, h3]

theorem propagateUpdate_allSet (g : Option Update) (u : Update)
    (h1 : u.canaryWatchTime ≠ "") (h2 : u.updateWatchTime ≠ "") (h3 : u.serial ≠ none) :
    propagateUpdate g (some u) = some (some u) := by
  simp [propagateUpdate, h1, h2, h3]

theorem interpolateOps_append {Op M : Type} (d : ResolverDeps Op M)
    (l1 l2 : List Op) (m : String) :
    interpolateOps d (l1 ++ l2) m =
      (interpolateOps d l1 m).bind (fun m' => interpolateOps d l2 m') :=
  foldlM_option_append d.applyOp l1 l2 m

theorem interp_chain {Op M : Type} (d : ResolverDeps Op M) :
    ∀ (ops : List ResourceRef) (acc : List Op) (m : String),
      (ops.foldlM (fun (acc : List Op) (op : ResourceRef) =>
          (d.fetch op.type op.name OpsSpecName).bind (fun opsData =>
            (d.parseOps opsData).bind (fun parsed =>
              some (acc ++ parsed)))) acc).bind (fun l => interpolateOps d l m) =
      (interpolateOps d acc m).bind (fun m' =>
        ops.foldlM (fun (cur : String) (op : ResourceRef) =>
          (d.fetch op.type op.name OpsSpecName).bind (fun opsData =>
            (d.parseOps opsData).bind (fun parsed =>
              interpolateOps d parsed cur))) m') := by
  intro ops
  induction ops with
  | nil =>
    intro acc m
    simp
  | cons op rest ih =>
    intro acc m
    cases hf : d.fetch op.type op.name OpsSpecName with
    | none =>
      simp [hf, option_bind_const_none]
    | some o =>
      cases hp : d.parseOps o with
      | none =>
        simp [hf, hp, option_bind_const_none]
      | some p =>
        simp only [List.foldlM_cons, hf, hp, Option.bind_eq_bind, Option.some_bind]
        rw [ih (acc ++ p) m, interpolateOps_append, Option.bind_assoc]

theorem loadBatch_eq_loadDetailed {Op M : Type} (d : ResolverDeps Op M) (spec : BdplSpec) :
    loadBatch d spec = loadDetailed d spec := by
  unfold loadBatch loadDetailed
  cases hm : d.fetch spec.manifest.type spec.manifest.name ManifestSpecName with
  | none => simp [Option.bind_eq_bind]
  | some m =>
    simp only [Option.bind_eq_bind, Option.some_bind, Option.pure_def]
    cases hops : spec.ops with
    | nil => simp
    | cons op rest =>
      simp only [List.isEmpty_cons, Bool.false_eq_true, if_false, ite_false]
      have hnil : interpolateOps d ([] : List Op) m = some m := rfl
      have hchain := interp_chain d (op :: rest) [] m
      rw [hnil, Option.some_bind] at hchain
      rw [← Option.bind_assoc, hchain]

/-! ## Claims -/

/-- C2: for the same manifest text and the same ordered ops files, the
batch resolution path (`Manifest`, accumulating all ops and
evaluating once) and the per-ops-file path (`ManifestDetailed`,
re-evaluating after each ops file) agree - here proved as outright
equality of the two entry points, for every fetcher, evaluator,
parser and shared downstream pipeline. -/
theorem claim_C2 {Op M : Type} (d : ResolverDeps Op M) (spec : BdplSpec) :
    resolverManifest d spec = resolverManifestDetailed d spec := by
  unfold resolverManifest resolverManifestDetailed
  rw [loadBatch_eq_loadDetailed]

/-- C3: `ApplyAddons` is idempotent through the `AddOnsApplied` guard:
a successful call leaves a manifest whose `AddOnsApplied` is true, and
a second call on that manifest returns successfully with the manifest
unchanged (in particular no instance group's job list changes), for
every placement matcher. -/
theorem claim_C3 (pm : PlacementMatch) (m m' : Manifest)
    (h : m.applyAddons pm = some m') :
    m'.addOnsApplied = true ∧ m'.applyAddons pm = some m' := by
  by_cases hm : m.addOnsApplied
  · have hm' : m' = m := by
      simp [Manifest.applyAddons, hm] at h
      exact h.symm
    subst hm'
    exact ⟨hm, by simp [Manifest.applyAddons, hm]⟩
  · simp only [Manifest.applyAddons, hm, if_false, Bool.false_eq_true] at h
    obtain ⟨igs, hig, heq⟩ := Option.bind_eq_some.mp h
    have hm' : m' = { m with instanceGroups := igs, addOnsApplied := true } := by
      simpa using heq.symm
    subst hm'
    refine ⟨rfl, ?_⟩
    simp [Manifest.applyAddons]

/-- C3 witness: on a concrete manifest with one addon and one instance
group, `ApplyAddons` succeeds, sets the guard, and a second call is a
no-op. -/
theorem claim_C3_witness :
    Manifest.applyAddons egMatch egManifest = some egManifestApplied ∧
    egManifestApplied.addOnsApplied = true ∧
    egManifestApplied.applyAddons egMatch = some egManifestApplied := by
  have h : Manifest.applyAddons egMatch egManifest = some egManifestApplied := rfl
  exact ⟨h, (claim_C3 egMatch egManifest egManifestApplied h).1,
    (claim_C3 egMatch egManifest egManifestApplied h).2⟩

/-- C4: variable classification - `((foo))` is discovered as implicit
name `foo` and resolved with the default secret key `value`;
`((foo/bar))` is kept slashed and classified as secret `foo` (under
the sanitizer) with key `bar`; `((foo.bar))` drops the dotted suffix,
giving implicit name `foo`; and `foo/bar/baz` is a hard
classification error (expected exactly one separator). -/
theorem claim_C4 (sanitize : String → String) :
    Manifest.implicitVariables
        ⟨"", [], [], [], none, false⟩ "password: ((foo))" = ["foo"] ∧
    classifyVar sanitize "foo" = .ok (sanitize "foo", "value") ∧
    Manifest.implicitVariables
        ⟨"", [], [], [], none, false⟩ "cert: ((foo/bar))" = ["foo/bar"] ∧
    classifyVar sanitize "foo/bar" = .ok (sanitize "foo", "bar") ∧
    Manifest.implicitVariables
        ⟨"", [], [], [], none, false⟩ "key: ((foo.bar))" = ["foo"] ∧
    classifyVar sanitize "foo/bar/baz" =
      .error "expected one / separator for implicit variable/key name, have 3" :=
  ⟨rfl, rfl, rfl, rfl, rfl, rfl⟩

/-- C7: when a global update block exists,
`PropagateGlobalUpdateBlockToIGs` performs a field-level merge: a
group without an update block adopts the global block wholesale, and
a group with a partial block has exactly its unset sub-fields (empty
canary watch time, empty update watch time, nil serial) filled from
the global block, set sub-fields staying untouched. -/
theorem claim_C7 (m : Manifest) (g : Update) (h : m.update = some g) :
    m.propagateGlobalUpdateBlockToIGs =
      some { m with instanceGroups := specPropagateIGs g m.instanceGroups } := by
  unfold Manifest.propagateGlobalUpdateBlockToIGs
  rw [h]
  have hf : ∀ ig : InstanceGroup,
      (propagateUpdate (some g) ig.update).map (fun u => { ig with update := u }) =
        some { ig with update := some (specUpdateMerge g ig.update) } := by
    intro ig
    rw [propagateUpdate_global_some]
    rfl
  rw [optionMapM_of_forall_some _ _ hf]
  rfl

/-- C7 witness: a group with only `serial` set keeps its serial and
inherits both watch times; a group without a block adopts the global
block wholesale. -/
theorem claim_C7_witness :
    egUpdateManifest.update = some egGlobalUpdate ∧
    egUpdateManifest.propagateGlobalUpdateBlockToIGs =
      some { egUpdateManifest with
        instanceGroups := specPropagateIGs egGlobalUpdate egUpdateManifest.instanceGroups } :=
  ⟨rfl, claim_C7 egUpdateManifest egGlobalUpdate rfl⟩

/-- C8 (amended: every addon except the reserved `bosh-dns` addon):
for one addon and one instance group, the addon's jobs are appended
exactly when the include rules match and the exclude rules do not,
every appended job clone is marked addon-originated, and otherwise
the group is unchanged. -/
theorem claim_C8 (pm : PlacementMatch) (addon : AddOn) (ig : InstanceGroup)
    (inc exc : Bool)
    (h1 : pm "inclusion" ig addon.includeRules = some inc)
    (h2 : pm "exclusion" ig addon.excludeRules = some exc) :
    applyAddonToIG pm addon ig =
      some (if inc && !exc then
        { ig with jobs := ig.jobs ++ addon.jobs.map mkAddonJob } else ig) ∧
    ∀ aj : AddOnJob, (mkAddonJob aj).properties.quarks.isAddon = true := by
  refine ⟨?_, fun aj => rfl⟩
  unfold applyAddonToIG
  rw [h1, h2]
  cases inc <;> cases exc <;> rfl

/-- C8 witness: with matching include rules and non-matching exclude
rules, the addon job is appended and marked addon-originated. -/
theorem claim_C8_witness :
    applyAddonToIG egMatch ⟨"logging", [egAddOnJob], none, none⟩ egIG =
      some { egIG with jobs := egIG.jobs ++ [egAddOnJob].map mkAddonJob } ∧
    (mkAddonJob egAddOnJob).properties.quarks.isAddon = true := by
  have h := claim_C8 egMatch ⟨"logging", [egAddOnJob], none, none⟩ egIG true false rfl rfl
  exact ⟨by simpa using h.1, h.2 egAddOnJob⟩

/-- C8 counterexample: the claim as stated quantifies over every
addon, but `ApplyAddons` skips the addon named `bosh-dns`: its
include rules match (and its exclude rules do not), it carries one
job, yet the manifest comes back with every job list unchanged - only
the `AddOnsApplied` flag is set. -/
theorem claim_C8_counterexample :
    egMatch "inclusion" egIG none = some true ∧
    egMatch "exclusion" egIG none = some false ∧
    (egDnsManifest.addOns.map (fun a => a.jobs.length)) = [1] ∧
    Manifest.applyAddons egMatch egDnsManifest =
      some { egDnsManifest with addOnsApplied := true } :=
  ⟨rfl, rfl, rfl, rfl⟩

/-- C9: implicit-variable discovery is disjoint from the declared
variables: a name appearing both as a placeholder in the serialized
document and in the manifest's `Variables` list is not returned, and
every returned name is undeclared. -/
theorem claim_C9 (m : Manifest) (raw : String) (v : String)
    (h1 : v ∈ (scanVars raw.toList).map processVarName)
    (h2 : v ∈ m.vars.map Variable.name) :
    v ∉ m.implicitVariables raw ∧
      ∀ w ∈ m.implicitVariables raw, w ∉ m.vars.map Variable.name := by
  have key : ∀ w ∈ m.implicitVariables raw, w ∉ m.vars.map Variable.name := by
    intro w hw hww
    unfold Manifest.implicitVariables at hw
    rw [List.mem_filter] at hw
    obtain ⟨-, hall⟩ := hw
    rw [List.all_eq_true] at hall
    obtain ⟨vv, hvv, hname⟩ := List.mem_map.mp hww
    have hne := hall vv hvv
    simp only [ne_eq, decide_not, Bool.not_eq_true', decide_eq_false_iff_not] at hne
    exact hne hname
  exact ⟨fun hv => key v hv h2, key⟩

/-- C9 witness: `foo` occurs as `((foo))` in the document and is
declared in `Variables`, so discovery omits it. -/
theorem claim_C9_witness :
    "foo" ∈ (scanVars ("password: ((foo))".toList)).map processVarName ∧
    "foo" ∈ egVarManifest.vars.map Variable.name ∧
    ("foo" ∉ egVarManifest.implicitVariables "password: ((foo))" ∧
      ∀ w ∈ egVarManifest.implicitVariables "password: ((foo))",
        w ∉ egVarManifest.vars.map Variable.name) :=
  ⟨by decide, by decide,
    claim_C9 egVarManifest "password: ((foo))" "foo" (by decide) (by decide)⟩

/-- C10: with no global update block, propagation completes whenever
every group either has no override or a fully set one, leaving nil
update blocks nil (the manifest is unchanged); but a group carrying a
partial override makes the code read through the nil global block - a
fault, shown on a concrete manifest. -/
theorem claim_C10 :
    (∀ m : Manifest, m.update = none →
      (∀ ig ∈ m.instanceGroups, ig.update = none ∨
        ∃ u, ig.update = some u ∧ u.canaryWatchTime ≠ "" ∧
          u.updateWatchTime ≠ "" ∧ u.serial ≠ none) →
      m.propagateGlobalUpdateBlockToIGs = some m) ∧
    Manifest.propagateGlobalUpdateBlockToIGs
      ⟨"", [⟨"api", [], some ⟨"", "", some false⟩⟩], [], [], none, false⟩ = none := by
  constructor
  · intro m hU hIG
    unfold Manifest.propagateGlobalUpdateBlockToIGs
    rw [optionMapM_id_of_forall_self _ m.instanceGroups ?_]
    · rfl
    · intro ig hig
      rcases hIG ig hig with hnone | ⟨u, hu, h1, h2, h3⟩
      · rw [hnone]
        show some { ig with update := m.update } = some ig
        rw [hU, ← hnone]
      · rw [hu, propagateUpdate_allSet m.update u h1 h2 h3]
        show some { ig with update := some u } = some ig
        rw [← hu]
  · rfl

/-- C10 witness: on a manifest with no global block, one group without
an override and one with a fully set override, propagation completes
and changes nothing. -/
theorem claim_C10_witness :
    egNilUpdateManifest.update = none ∧
    egNilUpdateManifest.propagateGlobalUpdateBlockToIGs = some egNilUpdateManifest := by
  refine ⟨rfl, claim_C10.1 egNilUpdateManifest rfl ?_⟩
  intro ig hig
  rcases List.mem_cons.mp hig with rfl | hig2
  · exact Or.inl rfl
  · rcases List.mem_singleton.mp hig2 with rfl
    exact Or.inr ⟨⟨"10000", "20000", some true⟩, rfl, by decide, by decide, by decide⟩


/-! ## Serialization round-trip and determinism lemmas -/


theorem hexChar_length (c : Char) : (hexChar c).length = 6 := rfl

theorem flatMap_hexChar_length (l : List Char) : (l.flatMap hexChar).length = 6 * l.length := by
  induction l with
  | nil => rfl
  | cons c cs ih => simp [List.flatMap_cons, hexChar_length, ih]; ring

theorem sha1Of_length (s : String) : (sha1Of s).length = 6 * s.length := by
  show (s.data.flatMap hexChar).length = 6 * s.data.length
  exact flatMap_hexChar_length s.data

theorem alias_length (s : String) : ("*" ++ sha1Of s).length = 1 + 6 * s.length := by
  rw [String.length_append, sha1Of_length]
  simp [show "*".length = 1 from rfl]

mutual

theorem shortKept_markVal (v : YVal) (t : DupTable) :
    shortEntriesVal (markVal v t).1 = shortEntriesVal v := by
  cases v with
  | vstr s => rfl
  | vother => rfl
  | vseq items => simp [markVal, shortEntriesVal, shortKept_markList items t]
  | vmap entries => simp [markVal, shortEntriesVal, shortKept_markItems entries t]

theorem shortKept_markList (l : List YVal) (t : DupTable) :
    shortEntriesList (markList l t).1 = shortEntriesList l := by
  cases l with
  | nil => rfl
  | cons v rest =>
    simp [markList, shortEntriesList, shortKept_markVal v t,
      shortKept_markList rest (markVal v t).2]

theorem shortKept_markItems (es : List (String × YVal)) (t : DupTable) :
    shortEntriesEntries (markItems es t).1 = shortEntriesEntries es := by
  cases es with
  | nil => rfl
  | cons e rest =>
    obtain ⟨k, v⟩ := e
    cases v with
    | vstr s =>
      by_cases hl : s ≠ "" ∧ 64 < s.length
      · have hlong : ¬ s.length ≤ 64 := by omega
        have halias : ¬ ("*" ++ sha1Of s).length ≤ 64 := by
          rw [alias_length]; omega
        by_cases hh : t.hasHash (sha1Of s)
        · simp [markItems, if_pos hl, hh, shortEntriesEntries, hlong, halias,
            shortKept_markItems rest t, sha1Of_length, show "*".length = 1 from rfl]
          omega
        · simp [markItems, if_pos hl, hh, shortEntriesEntries, hlong,
            shortKept_markItems rest (t ++ [⟨sha1Of s, k⟩])]
      · simp [markItems, if_neg hl, shortEntriesEntries, shortKept_markItems rest t]
    | vother =>
      simp [markItems, markVal, shortEntriesEntries, shortEntriesVal,
        shortKept_markItems rest t]
    | vseq items =>
      simp [markItems, markVal, shortEntriesEntries, shortEntriesVal,
        shortKept_markList items t,
        shortKept_markItems rest (markList items t).2]
    | vmap entries =>
      simp [markItems, markVal, shortEntriesEntries, shortEntriesVal,
        shortKept_markItems entries t,
        shortKept_markItems rest (markItems entries t).2]

end

mutual

theorem tableProv_markVal (v : YVal) (t : DupTable) :
    ∀ d ∈ (markVal v t).2, d ∈ t ∨ ∃ s, d.hash = sha1Of s ∧ 64 < s.length := by
  cases v with
  | vstr s => intro d hd; exact Or.inl hd
  | vother => intro d hd; exact Or.inl hd
  | vseq items => exact tableProv_markList items t
  | vmap entries => exact tableProv_markItems entries t

theorem tableProv_markList (l : List YVal) (t : DupTable) :
    ∀ d ∈ (markList l t).2, d ∈ t ∨ ∃ s, d.hash = sha1Of s ∧ 64 < s.length := by
  cases l with
  | nil => intro d hd; exact Or.inl hd
  | cons v rest =>
    intro d hd
    rcases tableProv_markList rest (markVal v t).2 d hd with h | h
    · exact tableProv_markVal v t d h
    · exact Or.inr h

theorem tableProv_markItems (es : List (String × YVal)) (t : DupTable) :
    ∀ d ∈ (markItems es t).2, d ∈ t ∨ ∃ s, d.hash = sha1Of s ∧ 64 < s.length := by
  cases es with
  | nil => intro d hd; exact Or.inl hd
  | cons e rest =>
    obtain ⟨k, v⟩ := e
    cases v with
    | vstr s =>
      by_cases hl : s ≠ "" ∧ 64 < s.length
      · cases hh : t.hasHash (sha1Of s) with
        | true =>
          intro d hd
          simp only [markItems, if_pos hl, hh, if_true] at hd
          exact tableProv_markItems rest t d hd
        | false =>
          intro d hd
          simp only [markItems, if_pos hl, hh, Bool.false_eq_true, if_false] at hd
          rcases tableProv_markItems rest (t ++ [⟨sha1Of s, k⟩]) d hd with h | h
          · rcases List.mem_append.mp h with h2 | h2
            · exact Or.inl h2
            · rcases List.mem_singleton.mp h2 with rfl
              exact Or.inr ⟨s, rfl, hl.2⟩
          · exact Or.inr h
      · intro d hd
        simp only [markItems, if_neg hl] at hd
        exact tableProv_markItems rest t d hd
    | vother =>
      intro d hd
      simp only [markItems, markVal] at hd
      exact tableProv_markItems rest t d hd
    | vseq items =>
      intro d hd
      simp only [markItems, markVal] at hd
      rcases tableProv_markItems rest (markList items t).2 d hd with h | h
      · exact tableProv_markList items t d h
      · exact Or.inr h
    | vmap entries =>
      intro d hd
      simp only [markItems, markVal] at hd
      rcases tableProv_markItems rest (markItems entries t).2 d hd with h | h
      · exact tableProv_markItems entries t d h
      · exact Or.inr h

end

theorem hexDigit_ne_eq (n : Nat) (h : n < 16) : hexDigit n ≠ '=' := by
  interval_cases n <;> decide

theorem sha1Of_eq_free (s : String) : '=' ∉ (sha1Of s).data := by
  show '=' ∉ s.data.flatMap hexChar
  intro hmem
  obtain ⟨c, -, hc⟩ := List.mem_flatMap.mp hmem
  simp only [hexChar, List.mem_cons, List.not_mem_nil, or_false] at hc
  rcases hc with h | h | h | h | h | h <;>
    exact absurd h.symm (hexDigit_ne_eq _ (Nat.mod_lt _ (by norm_num)))

theorem hexDigit_inj : ∀ m < 16, ∀ n < 16, hexDigit m = hexDigit n → m = n := by
  decide

theorem char_toNat_lt (c : Char) : c.toNat < 16777216 := by
  have h := c.valid
  rcases h with h | ⟨-, h⟩ <;>
    · show c.val.toNat < 16777216
      omega

theorem hexChar_inj (c1 c2 : Char) (h : hexChar c1 = hexChar c2) : c1 = c2 := by
  simp only [hexChar, List.cons.injEq, and_true] at h
  obtain ⟨h1, h2, h3, h4, h5, h6⟩ := h
  have e1 := hexDigit_inj _ (Nat.mod_lt _ (by norm_num)) _ (Nat.mod_lt _ (by norm_num)) h1
  have e2 := hexDigit_inj _ (Nat.mod_lt _ (by norm_num)) _ (Nat.mod_lt _ (by norm_num)) h2
  have e3 := hexDigit_inj _ (Nat.mod_lt _ (by norm_num)) _ (Nat.mod_lt _ (by norm_num)) h3
  have e4 := hexDigit_inj _ (Nat.mod_lt _ (by norm_num)) _ (Nat.mod_lt _ (by norm_num)) h4
  have e5 := hexDigit_inj _ (Nat.mod_lt _ (by norm_num)) _ (Nat.mod_lt _ (by norm_num)) h5
  have e6 := hexDigit_inj _ (Nat.mod_lt _ (by norm_num)) _ (Nat.mod_lt _ (by norm_num)) h6
  have b1 := char_toNat_lt c1
  have b2 := char_toNat_lt c2
  have : c1.toNat = c2.toNat := by omega
  exact Char.eq_of_val_eq (UInt32.ext this)

theorem flatMap_hexChar_inj : ∀ l1 l2 : List Char,
    l1.flatMap hexChar = l2.flatMap hexChar → l1 = l2 := by
  intro l1
  induction l1 with
  | nil =>
    intro l2 h
    cases l2 with
    | nil => rfl
    | cons c cs => simp [hexChar, List.flatMap_cons] at h
  | cons c cs ih =>
    intro l2 h
    cases l2 with
    | nil => simp [hexChar, List.flatMap_cons] at h
    | cons c2 cs2 =>
      simp only [List.flatMap_cons, hexChar, List.cons_append, List.nil_append,
        List.cons.injEq] at h
      obtain ⟨h1, h2, h3, h4, h5, h6, hrest⟩ := h
      have hc : c = c2 := hexChar_inj c c2 (by simp [hexChar, h1, h2, h3, h4, h5, h6])
      rw [hc, ih cs2 hrest]

theorem sha1Of_inj (s1 s2 : String) (h : sha1Of s1 = sha1Of s2) : s1 = s2 := by
  have hd : s1.data.flatMap hexChar = s2.data.flatMap hexChar := by
    have := congrArg String.data h
    exact this
  cases s1; cases s2
  exact congrArg String.mk (flatMap_hexChar_inj _ _ hd)

theorem sep_split_unique : ∀ (a1 : List Char) (h1 : List Char) (a2 h2 : List Char),
    '=' ∉ h1 → '=' ∉ h2 → a1 ++ '=' :: h1 = a2 ++ '=' :: h2 → a1 = a2 ∧ h1 = h2 := by
  intro a1
  induction a1 with
  | nil =>
    intro h1 a2 h2 hf1 hf2 heq
    cases a2 with
    | nil =>
      simp only [List.nil_append, List.cons.injEq, true_and] at heq
      exact ⟨rfl, heq⟩
    | cons c a2' =>
      simp only [List.nil_append, List.cons_append, List.cons.injEq] at heq
      exact absurd (heq.2 ▸ List.mem_append_right a2' (List.mem_cons_self '=' h2)) hf1
  | cons c a1' ih =>
    intro h1 a2 h2 hf1 hf2 heq
    cases a2 with
    | nil =>
      simp only [List.cons_append, List.nil_append, List.cons.injEq] at heq
      exact absurd (heq.2.symm ▸ List.mem_append_right a1' (List.mem_cons_self '=' h1)) hf2
    | cons c2 a2' =>
      simp only [List.cons_append, List.cons.injEq] at heq
      obtain ⟨rfl, heq⟩ := heq
      obtain ⟨ha, hh⟩ := ih h1 a2' h2 hf1 hf2 heq
      exact ⟨by rw [ha], hh⟩

theorem marker_split_unique (k1 h1 k2 h2 : String)
    (hf1 : '=' ∉ h1.data) (hf2 : '=' ∉ h2.data)
    (heq : k1 ++ "=" ++ h1 = k2 ++ "=" ++ h2) : k1 = k2 ∧ h1 = h2 := by
  have hd : k1.data ++ '=' :: h1.data = k2.data ++ '=' :: h2.data := by
    have := congrArg String.data heq
    simpa [String.data_append] using this
  obtain ⟨ha, hh⟩ := sep_split_unique k1.data h1.data k2.data h2.data hf1 hf2 hd
  constructor
  · cases k1; cases k2; exact congrArg String.mk ha
  · cases h1; cases h2; exact congrArg String.mk hh

theorem ne_marker_of_eq_free (k m h : String) (hk : containsEq k = false) :
    k ≠ m ++ "=" ++ h := by
  intro heq
  have : '=' ∈ k.data := by
    rw [heq]
    simp [String.data_append]
  simp only [containsEq, List.contains_eq_any_beq, List.any_eq_false] at hk
  have := hk '=' this
  simp at this

theorem ne_star_of_star_free (s h : String) (hs : startsWithStar s = false) :
    s ≠ "*" ++ h := by
  intro heq
  have hdd : s.data = '*' :: h.data := by
    rw [heq]
    simp [String.data_append]
  rw [startsWithStar, hdd] at hs
  simp at hs

theorem findSome?_eq_some_of_mem {α β : Type} (f : α → Option β) :
    ∀ (l : List α) (x : α) (v : β), x ∈ l → f x = some v →
      (∀ y ∈ l, ∀ w, f y = some w → w = v) → l.findSome? f = some v := by
  intro l
  induction l with
  | nil => intro x v hx; exact absurd hx (List.not_mem_nil x)
  | cons a rest ih =>
    intro x v hx hfx huniq
    rw [List.findSome?_cons]
    cases ha : f a with
    | some w => rw [huniq a (List.mem_cons_self a rest) w ha]
    | none =>
      rcases List.mem_cons.mp hx with rfl | hx2
      · rw [ha] at hfx; exact absurd hfx (by simp)
      · exact ih x v hx2 hfx (fun y hy => huniq y (List.mem_cons_of_mem a hy))

theorem findSome?_congr_perm {α β : Type} (f : α → Option β) (l l' : List α)
    (hp : l.Perm l')
    (huniq : ∀ y ∈ l, ∀ z ∈ l, ∀ w v, f y = some w → f z = some v → w = v) :
    l.findSome? f = l'.findSome? f := by
  cases h : l.findSome? f with
  | some v =>
    obtain ⟨x, hx, hfx⟩ := List.exists_of_findSome?_eq_some h
    exact (findSome?_eq_some_of_mem f l' x v (hp.mem_iff.mp hx) hfx
      (fun y hy w hw => huniq y (hp.mem_iff.mpr hy) x hx w v hw hfx)).symm
  | none =>
    rw [List.findSome?_eq_none_iff] at h
    rw [eq_comm, List.findSome?_eq_none_iff]
    exact fun x hx => h x (hp.mem_iff.mpr hx)

theorem star_append_inj (h1 h2 : String) (h : "*" ++ h1 = "*" ++ h2) : h1 = h2 := by
  have hd := congrArg String.data h
  simp only [String.data_append] at hd
  have : h1.data = h2.data := by
    have h' : '*' :: h1.data = '*' :: h2.data := by simpa using hd
    exact List.cons.inj h' |>.2
  cases h1; cases h2; exact congrArg String.mk this

theorem stripMarker_eq_some (t : DupTable) (k h : String)
    (hhf : ∀ d ∈ t, '=' ∉ d.hash.data) (hmem : (⟨h, k⟩ : DupVal) ∈ t)
    (hh : '=' ∉ h.data) :
    stripMarker t (k ++ "=" ++ h) = some (k, h) := by
  apply findSome?_eq_some_of_mem _ t ⟨h, k⟩ (k, h) hmem (by simp)
  intro d hd w hw
  simp only at hw
  by_cases hc : k ++ "=" ++ h = d.yamlKeyMarker ++ "=" ++ d.hash
  · rw [if_pos hc] at hw
    obtain ⟨hk2, hh2⟩ := marker_split_unique k h d.yamlKeyMarker d.hash hh (hhf d hd) hc
    injection hw with hw
    rw [← hw, ← hk2, ← hh2]
  · rw [if_neg hc] at hw
    exact absurd hw (by simp)

theorem stripMarker_eq_none (t : DupTable) (k : String) (hk : containsEq k = false) :
    stripMarker t k = none := by
  rw [stripMarker, List.findSome?_eq_none_iff]
  intro d hd
  rw [if_neg (ne_marker_of_eq_free k d.yamlKeyMarker d.hash hk)]

theorem aliasHash_eq_none (t : DupTable) (s : String) (hs : startsWithStar s = false) :
    aliasHash t s = none := by
  rw [aliasHash, List.findSome?_eq_none_iff]
  intro d hd
  rw [if_neg (ne_star_of_star_free s d.hash hs)]

theorem stripMarker_perm (t t' : DupTable) (hp : t.Perm t')
    (hhf : ∀ d ∈ t, '=' ∉ d.hash.data) (k : String) :
    stripMarker t k = stripMarker t' k := by
  apply findSome?_congr_perm _ t t' hp
  intro y hy z hz w v hw hv
  simp only at hw hv
  by_cases hcy : k = y.yamlKeyMarker ++ "=" ++ y.hash
  · by_cases hcz : k = z.yamlKeyMarker ++ "=" ++ z.hash
    · rw [if_pos hcy] at hw
      rw [if_pos hcz] at hv
      obtain ⟨hk2, hh2⟩ := marker_split_unique y.yamlKeyMarker y.hash z.yamlKeyMarker z.hash
        (hhf y hy) (hhf z hz) (hcy ▸ hcz)
      injection hw with hw
      injection hv with hv
      rw [← hw, ← hv, hk2, hh2]
    · rw [if_neg hcz] at hv
      exact absurd hv (by simp)
  · rw [if_neg hcy] at hw
    exact absurd hw (by simp)

theorem aliasHash_perm (t t' : DupTable) (hp : t.Perm t') (s : String) :
    aliasHash t s = aliasHash t' s := by
  apply findSome?_congr_perm _ t t' hp
  intro y hy z hz w v hw hv
  simp only at hw hv
  by_cases hcy : s = "*" ++ y.hash
  · by_cases hcz : s = "*" ++ z.hash
    · rw [if_pos hcy] at hw
      rw [if_pos hcz] at hv
      injection hw with hw
      injection hv with hv
      rw [← hw, ← hv, star_append_inj y.hash z.hash (hcy ▸ hcz)]
    · rw [if_neg hcz] at hv
      exact absurd hv (by simp)
  · rw [if_neg hcy] at hw
    exact absurd hw (by simp)

mutual

theorem render_congr_val (t t' : DupTable)
    (hstrip : ∀ k, stripMarker t k = stripMarker t' k)
    (halias : ∀ s, aliasHash t s = aliasHash t' s) :
    ∀ v : YVal, renderVal t v = renderVal t' v := by
  intro v
  cases v with
  | vstr s => simp only [renderVal, halias s]
  | vother => rfl
  | vseq items => simp only [renderVal, render_congr_list t t' hstrip halias items]
  | vmap entries => simp only [renderVal, render_congr_entries t t' hstrip halias entries]

theorem render_congr_list (t t' : DupTable)
    (hstrip : ∀ k, stripMarker t k = stripMarker t' k)
    (halias : ∀ s, aliasHash t s = aliasHash t' s) :
    ∀ l : List YVal, renderList t l = renderList t' l := by
  intro l
  cases l with
  | nil => rfl
  | cons v rest =>
    cases rest with
    | nil => simp only [renderList, render_congr_val t t' hstrip halias v]
    | cons w rest2 =>
      simp only [renderList, render_congr_val t t' hstrip halias v,
        render_congr_list t t' hstrip halias (w :: rest2)]

theorem render_congr_entries (t t' : DupTable)
    (hstrip : ∀ k, stripMarker t k = stripMarker t' k)
    (halias : ∀ s, aliasHash t s = aliasHash t' s) :
    ∀ es : List (String × YVal), renderEntries t es = renderEntries t' es := by
  intro es
  cases es with
  | nil => rfl
  | cons e rest =>
    obtain ⟨k, v⟩ := e
    cases rest with
    | nil =>
      simp only [renderEntries, hstrip k, render_congr_val t t' hstrip halias v]
    | cons f rest2 =>
      simp only [renderEntries, hstrip k, render_congr_val t t' hstrip halias v,
        render_congr_entries t t' hstrip halias (f :: rest2)]

end

theorem claim_C6 (doc : List (String × YVal)) (t' : DupTable)
    (hp : ((markItems doc []).2).Perm t') :
    marshalDocWith t' doc = marshalDoc doc := by
  have hhf : ∀ d ∈ (markItems doc []).2, '=' ∉ d.hash.data := by
    intro d hd
    rcases tableProv_markItems doc [] d hd with h | ⟨s, hs, -⟩
    · exact absurd h (List.not_mem_nil d)
    · rw [hs]; exact sha1Of_eq_free s
  unfold marshalDoc marshalDocWith
  exact (render_congr_entries _ _ (stripMarker_perm _ _ hp hhf)
    (aliasHash_perm _ _ hp) _).symm

theorem hasHash_iff (t : DupTable) (h : String) :
    t.hasHash h = true ↔ ∃ d ∈ t, d.hash = h := by
  simp [DupTable.hasHash, List.any_eq_true]

theorem hasHash_append (t1 t2 : DupTable) (h : String) :
    (t1 ++ t2).hasHash h = (t1.hasHash h || t2.hasHash h) := by
  simp [DupTable.hasHash, List.any_append]

mutual

theorem specTable_prov_val (v : YVal) :
    ∀ d ∈ specTableVal v, ∃ s ∈ longStringsVal v, d.hash = sha1Of s := by
  cases v with
  | vstr s => intro d hd; exact absurd hd (List.not_mem_nil d)
  | vother => intro d hd; exact absurd hd (List.not_mem_nil d)
  | vseq items => exact specTable_prov_list items
  | vmap entries => exact specTable_prov_entries entries

theorem specTable_prov_list (l : List YVal) :
    ∀ d ∈ specTableList l, ∃ s ∈ longStringsList l, d.hash = sha1Of s := by
  cases l with
  | nil => intro d hd; exact absurd hd (List.not_mem_nil d)
  | cons v rest =>
    intro d hd
    simp only [specTableList] at hd
    rcases List.mem_append.mp hd with h | h
    · obtain ⟨s, hs, he⟩ := specTable_prov_val v d h
      exact ⟨s, by simp [longStringsList, hs], he⟩
    · obtain ⟨s, hs, he⟩ := specTable_prov_list rest d h
      exact ⟨s, by simp [longStringsList, hs], he⟩

theorem specTable_prov_entries (es : List (String × YVal)) :
    ∀ d ∈ specTableEntries es, ∃ s ∈ longStringsEntries es, d.hash = sha1Of s := by
  cases es with
  | nil => intro d hd; exact absurd hd (List.not_mem_nil d)
  | cons e rest =>
    obtain ⟨k, v⟩ := e
    cases v with
    | vstr s =>
      intro d hd
      simp only [specTableEntries] at hd
      rcases List.mem_append.mp hd with h | h
      · by_cases hl : s ≠ "" ∧ 64 < s.length
        · rw [if_pos hl] at h
          rcases List.mem_singleton.mp h with rfl
          exact ⟨s, by simp [longStringsEntries, hl.2], rfl⟩
        · rw [if_neg hl] at h
          exact absurd h (List.not_mem_nil d)
      · obtain ⟨s', hs', he⟩ := specTable_prov_entries rest d h
        refine ⟨s', ?_, he⟩
        simp only [longStringsEntries, List.mem_append]
        exact Or.inr hs'
    | vother =>
      intro d hd
      simp only [specTableEntries, specTableVal, List.nil_append] at hd
      obtain ⟨s', hs', he⟩ := specTable_prov_entries rest d hd
      exact ⟨s', by simp [longStringsEntries, longStringsVal, hs'], he⟩
    | vseq items =>
      intro d hd
      simp only [specTableEntries, specTableVal] at hd
      rcases List.mem_append.mp hd with h | h
      · obtain ⟨s', hs', he⟩ := specTable_prov_list items d h
        exact ⟨s', by simp [longStringsEntries, longStringsVal, hs'], he⟩
      · obtain ⟨s', hs', he⟩ := specTable_prov_entries rest d h
        exact ⟨s', by simp [longStringsEntries, longStringsVal, hs'], he⟩
    | vmap entries =>
      intro d hd
      simp only [specTableEntries, specTableVal] at hd
      rcases List.mem_append.mp hd with h | h
      · obtain ⟨s', hs', he⟩ := specTable_prov_entries entries d h
        exact ⟨s', by simp [longStringsEntries, longStringsVal, hs'], he⟩
      · obtain ⟨s', hs', he⟩ := specTable_prov_entries rest d h
        exact ⟨s', by simp [longStringsEntries, longStringsVal, hs'], he⟩

end

theorem long_iff_cond (s : String) (h : 64 < s.length) : s ≠ "" ∧ 64 < s.length := by
  refine ⟨?_, h⟩
  intro he
  rw [he] at h
  simp at h

mutual

theorem mark_eq_spec_val (v : YVal) (t : DupTable)
    (hnd : (longStringsVal v).Nodup)
    (hfresh : ∀ s ∈ longStringsVal v, t.hasHash (sha1Of s) = false) :
    markVal v t = (specMarkVal v, t ++ specTableVal v) := by
  cases v with
  | vstr s => simp [markVal, specMarkVal, specTableVal]
  | vother => simp [markVal, specMarkVal, specTableVal]
  | vseq items =>
    simp only [markVal, specMarkVal, specTableVal]
    rw [mark_eq_spec_list items t hnd hfresh]
  | vmap entries =>
    simp only [markVal, specMarkVal, specTableVal]
    rw [mark_eq_spec_entries entries t hnd hfresh]

theorem mark_eq_spec_list (l : List YVal) (t : DupTable)
    (hnd : (longStringsList l).Nodup)
    (hfresh : ∀ s ∈ longStringsList l, t.hasHash (sha1Of s) = false) :
    markList l t = (specMarkList l, t ++ specTableList l) := by
  cases l with
  | nil => simp [markList, specMarkList, specTableList]
  | cons v rest =>
    rw [longStringsList, List.nodup_append] at hnd
    obtain ⟨hnd1, hnd2, hdisj⟩ := hnd
    have hf1 : ∀ s ∈ longStringsVal v, t.hasHash (sha1Of s) = false := by
      intro s hs
      exact hfresh s (by simp [longStringsList, hs])
    have hf2 : ∀ s ∈ longStringsList rest,
        (t ++ specTableVal v).hasHash (sha1Of s) = false := by
      intro s hs
      rw [hasHash_append, Bool.or_eq_false_iff]
      refine ⟨hfresh s (by simp [longStringsList, hs]), ?_⟩
      by_contra hcon
      rw [Bool.not_eq_false, hasHash_iff] at hcon
      obtain ⟨d, hd, he⟩ := hcon
      obtain ⟨s', hs', he'⟩ := specTable_prov_val v d hd
      rw [he'] at he
      rw [sha1Of_inj s' s he] at hs'
      exact hdisj hs' hs
    simp only [markList, specMarkList, specTableList]
    rw [mark_eq_spec_val v t hnd1 hf1]
    rw [mark_eq_spec_list rest (t ++ specTableVal v) hnd2 hf2]
    simp [List.append_assoc]

theorem mark_eq_spec_entries (es : List (String × YVal)) (t : DupTable)
    (hnd : (longStringsEntries es).Nodup)
    (hfresh : ∀ s ∈ longStringsEntries es, t.hasHash (sha1Of s) = false) :
    markItems es t = (specMarkEntries es, t ++ specTableEntries es) := by
  cases es with
  | nil => simp [markItems, specMarkEntries, specTableEntries]
  | cons e rest =>
    obtain ⟨k, v⟩ := e
    cases v with
    | vstr s =>
      by_cases hl : s ≠ "" ∧ 64 < s.length
      · have hmem : s ∈ longStringsEntries ((k, YVal.vstr s) :: rest) := by
          simp [longStringsEntries, hl.2]
        have hh : t.hasHash (sha1Of s) = false := hfresh s hmem
        have hlongs : longStringsEntries ((k, YVal.vstr s) :: rest) =
            s :: longStringsEntries rest := by
          simp [longStringsEntries, hl.2]
        rw [hlongs] at hnd hfresh
        have hns : s ∉ longStringsEntries rest := (List.nodup_cons.mp hnd).1
        have hf2 : ∀ s' ∈ longStringsEntries rest,
            (t ++ [(⟨sha1Of s, k⟩ : DupVal)]).hasHash (sha1Of s') = false := by
          intro s' hs'
          rw [hasHash_append, Bool.or_eq_false_iff]
          refine ⟨hfresh s' (List.mem_cons_of_mem s hs'), ?_⟩
          simp only [DupTable.hasHash, List.any_cons, List.any_nil, Bool.or_false,
            decide_eq_false_iff_not]
          intro he
          exact hns (sha1Of_inj s s' he ▸ hs')
        simp only [markItems, if_pos hl, hh, Bool.false_eq_true, if_false,
          specMarkEntries, specTableEntries]
        rw [mark_eq_spec_entries rest (t ++ [(⟨sha1Of s, k⟩ : DupVal)])
          (List.nodup_cons.mp hnd).2 hf2]
        simp [hl, List.append_assoc]
      · have hnl : ¬ 64 < s.length := by
          intro hcon
          exact hl (long_iff_cond s hcon)
        have hlongs : longStringsEntries ((k, YVal.vstr s) :: rest) =
            longStringsEntries rest := by
          simp [longStringsEntries, hnl]
        rw [hlongs] at hnd hfresh
        simp only [markItems, if_neg hl, specMarkEntries, specTableEntries]
        rw [mark_eq_spec_entries rest t hnd hfresh]
        simp [hl]
    | vother =>
      simp only [markItems, markVal, specMarkEntries, specMarkVal, specTableEntries,
        specTableVal, List.nil_append]
      have hlongs : longStringsEntries ((k, YVal.vother) :: rest) =
          longStringsEntries rest := by
        simp [longStringsEntries, longStringsVal]
      rw [hlongs] at hnd hfresh
      rw [mark_eq_spec_entries rest t hnd hfresh]
    | vseq items =>
      have hlongs : longStringsEntries ((k, YVal.vseq items) :: rest) =
          longStringsList items ++ longStringsEntries rest := by
        simp [longStringsEntries, longStringsVal]
      rw [hlongs] at hnd hfresh
      rw [List.nodup_append] at hnd
      obtain ⟨hnd1, hnd2, hdisj⟩ := hnd
      have hf1 : ∀ s ∈ longStringsList items, t.hasHash (sha1Of s) = false :=
        fun s hs => hfresh s (List.mem_append_left _ hs)
      have hf2 : ∀ s ∈ longStringsEntries rest,
          (t ++ specTableList items).hasHash (sha1Of s) = false := by
        intro s hs
        rw [hasHash_append, Bool.or_eq_false_iff]
        refine ⟨hfresh s (List.mem_append_right _ hs), ?_⟩
        by_contra hcon
        rw [Bool.not_eq_false, hasHash_iff] at hcon
        obtain ⟨d, hd, he⟩ := hcon
        obtain ⟨s', hs', he'⟩ := specTable_prov_list items d hd
        rw [he'] at he
        rw [sha1Of_inj s' s he] at hs'
        exact hdisj hs' hs
      simp only [markItems, markVal, specMarkEntries, specMarkVal, specTableEntries,
        specTableVal]
      rw [mark_eq_spec_list items t hnd1 hf1]
      rw [mark_eq_spec_entries rest (t ++ specTableList items) hnd2 hf2]
      simp [List.append_assoc]
    | vmap entries =>
      have hlongs : longStringsEntries ((k, YVal.vmap entries) :: rest) =
          longStringsEntries entries ++ longStringsEntries rest := by
        simp [longStringsEntries, longStringsVal]
      rw [hlongs] at hnd hfresh
      rw [List.nodup_append] at hnd
      obtain ⟨hnd1, hnd2, hdisj⟩ := hnd
      have hf1 : ∀ s ∈ longStringsEntries entries, t.hasHash (sha1Of s) = false :=
        fun s hs => hfresh s (List.mem_append_left _ hs)
      have hf2 : ∀ s ∈ longStringsEntries rest,
          (t ++ specTableEntries entries).hasHash (sha1Of s) = false := by
        intro s hs
        rw [hasHash_append, Bool.or_eq_false_iff]
        refine ⟨hfresh s (List.mem_append_right _ hs), ?_⟩
        by_contra hcon
        rw [Bool.not_eq_false, hasHash_iff] at hcon
        obtain ⟨d, hd, he⟩ := hcon
        obtain ⟨s', hs', he'⟩ := specTable_prov_entries entries d hd
        rw [he'] at he
        rw [sha1Of_inj s' s he] at hs'
        exact hdisj hs' hs
      simp only [markItems, markVal, specMarkEntries, specMarkVal, specTableEntries,
        specTableVal]
      rw [mark_eq_spec_entries entries t hnd1 hf1]
      rw [mark_eq_spec_entries rest (t ++ specTableEntries entries) hnd2 hf2]
      simp [List.append_assoc]

end

theorem anchorsOf_append (l1 l2 : List String) :
    anchorsOf (l1 ++ l2) = anchorsOf l1 ++ anchorsOf l2 := by
  simp [anchorsOf]

mutual

theorem resolve_spec_val (t : DupTable) (hhf : ∀ d ∈ t, '=' ∉ d.hash.data) :
    ∀ (v : YVal) (env : AnchorEnv),
      starFreeValsVal v = true → eqFreeKeysVal v = true → specTableVal v ⊆ t →
      resolveVal t (specMarkVal v) env =
        some (v, env ++ anchorsOf (longStringsVal v)) := by
  intro v env hstar hkeys hsub
  cases v with
  | vstr s =>
    have hs : startsWithStar s = false := by
      simpa [starFreeValsVal] using hstar
    simp [specMarkVal, resolveVal, aliasHash_eq_none t s hs, anchorsOf, longStringsVal]
  | vother => simp [specMarkVal, resolveVal, anchorsOf, longStringsVal]
  | vseq items =>
    have h := resolve_spec_list t hhf items env
      (by simpa [starFreeValsVal] using hstar)
      (by simpa [eqFreeKeysVal] using hkeys)
      (by simpa [specTableVal] using hsub)
    simp [specMarkVal, resolveVal, h, longStringsVal]
  | vmap entries =>
    have h := resolve_spec_entries t hhf entries env
      (by simpa [starFreeValsVal] using hstar)
      (by simpa [eqFreeKeysVal] using hkeys)
      (by simpa [specTableVal] using hsub)
    simp [specMarkVal, resolveVal, h, longStringsVal]

theorem resolve_spec_list (t : DupTable) (hhf : ∀ d ∈ t, '=' ∉ d.hash.data) :
    ∀ (l : List YVal) (env : AnchorEnv),
      starFreeValsList l = true → eqFreeKeysList l = true → specTableList l ⊆ t →
      resolveList t (specMarkList l) env =
        some (l, env ++ anchorsOf (longStringsList l)) := by
  intro l env hstar hkeys hsub
  cases l with
  | nil => simp [specMarkList, resolveList, anchorsOf, longStringsList]
  | cons v rest =>
    rw [starFreeValsList, Bool.and_eq_true] at hstar
    rw [eqFreeKeysList, Bool.and_eq_true] at hkeys
    rw [specTableList] at hsub
    obtain ⟨hsub1, hsub2⟩ := List.append_subset.mp hsub
    have h1 := resolve_spec_val t hhf v env hstar.1 hkeys.1 hsub1
    have h2 := resolve_spec_list t hhf rest (env ++ anchorsOf (longStringsVal v))
      hstar.2 hkeys.2 hsub2
    simp [specMarkList, resolveList, h1, h2, longStringsList, anchorsOf_append,
      List.append_assoc]

theorem resolve_spec_entries (t : DupTable) (hhf : ∀ d ∈ t, '=' ∉ d.hash.data) :
    ∀ (es : List (String × YVal)) (env : AnchorEnv),
      starFreeValsEntries es = true → eqFreeKeysEntries es = true →
      specTableEntries es ⊆ t →
      resolveEntries t (specMarkEntries es) env =
        some (es, env ++ anchorsOf (longStringsEntries es)) := by
  intro es env hstar hkeys hsub
  cases es with
  | nil => simp [specMarkEntries, resolveEntries, anchorsOf, longStringsEntries]
  | cons e rest =>
    obtain ⟨k, v⟩ := e
    rw [starFreeValsEntries, Bool.and_eq_true] at hstar
    rw [eqFreeKeysEntries, Bool.and_eq_true, Bool.and_eq_true] at hkeys
    obtain ⟨⟨hk, hkv⟩, hkrest⟩ := hkeys
    have hkeq : containsEq k = false := by simpa using hk
    cases v with
    | vstr s =>
      by_cases hl : s ≠ "" ∧ 64 < s.length
      · rw [specTableEntries, if_pos hl] at hsub
        obtain ⟨hsub1, hsub2⟩ := List.append_subset.mp hsub
        have hmem : (⟨sha1Of s, k⟩ : DupVal) ∈ t := hsub1 (List.mem_singleton_self _)
        have hstrip := stripMarker_eq_some t k (sha1Of s) hhf hmem (sha1Of_eq_free s)
        have h2 := resolve_spec_entries t hhf rest (env ++ [(sha1Of s, s)])
          hstar.2 hkrest hsub2
        have hlongs : longStringsEntries ((k, YVal.vstr s) :: rest) =
            s :: longStringsEntries rest := by
          simp [longStringsEntries, hl.2]
        have hsm : specMarkEntries ((k, YVal.vstr s) :: rest) =
            (k ++ "=" ++ sha1Of s, YVal.vstr s) :: specMarkEntries rest := by
          rw [specMarkEntries, if_pos hl]
        rw [hsm, hlongs]
        simp [resolveEntries, hstrip, h2, anchorsOf, List.append_assoc]
      · have hnl : ¬ 64 < s.length := fun hcon => hl (long_iff_cond s hcon)
        have hstrip := stripMarker_eq_none t k hkeq
        have hs : startsWithStar s = false := by
          simpa [starFreeValsVal] using hstar.1
        have h2 := resolve_spec_entries t hhf rest env hstar.2 hkrest
          (by rw [specTableEntries, if_neg hl] at hsub; simpa using hsub)
        have hlongs : longStringsEntries ((k, YVal.vstr s) :: rest) =
            longStringsEntries rest := by
          simp [longStringsEntries, hnl]
        have hsm : specMarkEntries ((k, YVal.vstr s) :: rest) =
            (k, YVal.vstr s) :: specMarkEntries rest := by
          rw [specMarkEntries, if_neg hl]
        rw [hsm, hlongs]
        simp [resolveEntries, hstrip, resolveVal, aliasHash_eq_none t s hs, h2]
    | vother =>
      have hstrip := stripMarker_eq_none t k hkeq
      have hts : specTableEntries ((k, YVal.vother) :: rest) =
          specTableVal YVal.vother ++ specTableEntries rest := rfl
      have h2 := resolve_spec_entries t hhf rest env hstar.2 hkrest
        (by rw [hts] at hsub; simpa [specTableVal] using hsub)
      have hsm : specMarkEntries ((k, YVal.vother) :: rest) =
          (k, YVal.vother) :: specMarkEntries rest := rfl
      rw [hsm]
      simp [resolveEntries, hstrip, resolveVal, h2, longStringsEntries, longStringsVal]
    | vseq items =>
      have hstrip := stripMarker_eq_none t k hkeq
      have hts : specTableEntries ((k, YVal.vseq items) :: rest) =
          specTableList items ++ specTableEntries rest := rfl
      rw [hts] at hsub
      obtain ⟨hsub1, hsub2⟩ := List.append_subset.mp hsub
      have h1 := resolve_spec_val t hhf (YVal.vseq items) env hstar.1 hkv
        (by simpa [specTableVal] using hsub1)
      have h2 := resolve_spec_entries t hhf rest
        (env ++ anchorsOf (longStringsVal (YVal.vseq items))) hstar.2 hkrest hsub2
      have hsm : specMarkEntries ((k, YVal.vseq items) :: rest) =
          (k, YVal.vseq (specMarkList items)) :: specMarkEntries rest := rfl
      rw [hsm]
      simp only [specMarkVal, longStringsVal] at h1
      simp only [longStringsVal] at h2
      simp [resolveEntries, hstrip, h1, h2, longStringsEntries, longStringsVal,
        anchorsOf_append, List.append_assoc]
    | vmap entries =>
      have hstrip := stripMarker_eq_none t k hkeq
      have hts : specTableEntries ((k, YVal.vmap entries) :: rest) =
          specTableEntries entries ++ specTableEntries rest := rfl
      rw [hts] at hsub
      obtain ⟨hsub1, hsub2⟩ := List.append_subset.mp hsub
      have h1 := resolve_spec_val t hhf (YVal.vmap entries) env hstar.1 hkv
        (by simpa [specTableVal] using hsub1)
      have h2 := resolve_spec_entries t hhf rest
        (env ++ anchorsOf (longStringsVal (YVal.vmap entries))) hstar.2 hkrest hsub2
      have hsm : specMarkEntries ((k, YVal.vmap entries) :: rest) =
          (k, YVal.vmap (specMarkEntries entries)) :: specMarkEntries rest := rfl
      rw [hsm]
      simp only [specMarkVal, longStringsVal] at h1
      simp only [longStringsVal] at h2
      simp [resolveEntries, hstrip, h1, h2, longStringsEntries, longStringsVal,
        anchorsOf_append, List.append_assoc]

end



/-- C1: duplicate-value anchoring during Marshal touches only leaf strings
longer than 64 characters: the marking pass leaves every mapping entry
whose string value has length at most 64 verbatim (same key, same value,
no anchor marker, no alias), and every hash recorded in the
duplicateValues table is the hash of some string of length greater than
64, so a short string is never hashed. -/
theorem claim_C1 (doc : List (String × YVal)) :
    shortEntriesEntries (markItems doc []).1 = shortEntriesEntries doc ∧
    ∀ d ∈ (markItems doc []).2, ∃ s, d.hash = sha1Of s ∧ 64 < s.length := by
  refine ⟨shortKept_markItems doc [], fun d hd => ?_⟩
  rcases tableProv_markItems doc [] d hd with h | h
  · exact absurd h (List.not_mem_nil d)
  · exact h

set_option maxRecDepth 100000 in
theorem claim_C1_witness :
    shortEntriesEntries (markItems egC6doc []).1 = shortEntriesEntries egC6doc ∧
    (⟨sha1Of egLongX, "a"⟩ : DupVal) ∈ (markItems egC6doc []).2 ∧
    ∃ s, (⟨sha1Of egLongX, "a"⟩ : DupVal).hash = sha1Of s ∧ 64 < s.length :=
  ⟨(claim_C1 egC6doc).1, by decide,
    (claim_C1 egC6doc).2 ⟨sha1Of egLongX, "a"⟩ (by decide)⟩

set_option maxRecDepth 100000 in
theorem claim_C6_witness :
    ((markItems egC6doc []).2).Perm egC6tab ∧
    marshalDocWith egC6tab egC6doc = marshalDoc egC6doc :=
  ⟨by decide, claim_C6 egC6doc egC6tab (by decide)⟩

/-- C5 (amended): parsing the canonical serialization returns the original
document for every document that has no duplicate long string values,
whose keys do not contain the marker separator, and whose string values
do not start with the alias sigil. -/
theorem claim_C5 (doc : List (String × YVal))
    (hnd : hasDuplicateLongStrings doc = false)
    (hk : eqFreeKeysEntries doc = true)
    (hs : starFreeValsEntries doc = true) :
    roundTripDoc doc = some doc := by
  have hnodup : (longStringsEntries doc).Nodup := by
    simpa [hasDuplicateLongStrings] using hnd
  have hmark : markItems doc [] = (specMarkEntries doc, [] ++ specTableEntries doc) :=
    mark_eq_spec_entries doc [] hnodup (fun s _ => rfl)
  have hhf : ∀ d ∈ specTableEntries doc, '=' ∉ d.hash.data := by
    intro d hd
    obtain ⟨s, -, hsh⟩ := specTable_prov_entries doc d hd
    rw [hsh]; exact sha1Of_eq_free s
  have hres := resolve_spec_entries (specTableEntries doc) hhf doc [] hs hk
    (List.Subset.refl _)
  unfold roundTripDoc
  rw [hmark]
  simp [hres]

set_option maxRecDepth 100000 in
theorem claim_C5_witness :
    hasDuplicateLongStrings egC5ok = false ∧ eqFreeKeysEntries egC5ok = true ∧
    starFreeValsEntries egC5ok = true ∧ roundTripDoc egC5ok = some egC5ok :=
  ⟨by decide, by decide, by decide,
    claim_C5 egC5ok (by decide) (by decide) (by decide)⟩


set_option maxRecDepth 100000 in
theorem claim_C5_counterexample :
    hasDuplicateLongStrings egC5bad = false ∧ roundTripDoc egC5bad ≠ some egC5bad := by
  refine ⟨by decide, fun hcon => ?_⟩
  have h1 : roundTripDoc egC5bad = some egC5parsed := rfl
  rw [h1] at hcon
  have h2 : egC5parsed.map Prod.fst = egC5bad.map Prod.fst :=
    congrArg (fun l => l.map Prod.fst) (Option.some.inj hcon)
  exact absurd h2 (by decide)

end QuarksOperator
